import Mathlib

/-!
Verification of the SinGen signal generator (src/main.rs).

The development shallowly embeds the core pipeline of the program:

* `generate_linear_chirp` - the chirp generator (src/main.rs lines 268-291);
* `float_samples_to_bytes` / `quantize` - the quantizer and encoder
  (src/main.rs lines 293-307), with `get_range` (lines 98-104);
* `create_wav_file_array` / `WavHeader` - the WAV container builder
  (src/main.rs lines 443-468 and 49-85);
* `total_samples` / `total_bytes` / `main_buffer` - the arithmetic of `main`
  (src/main.rs lines 470-484).

Floating-point arithmetic is modelled over an abstract linear ordered field
with a floor function, instantiated at `Rat` for the decidable byte-level
claims and at `Real` (with `Real.sin` and `2 * Real.pi`) for the claims about
waveform values.  The transcendental function `sin` and the constant `TAU`
are passed as parameters `sinF` and `tau` to the generic definitions, so the
same translation of the source serves both instantiations.  One deliberate
float fact is kept: the Rust literal `2147483647.0_f32` rounds to `2 ^ 31`
(an f32 has a 24-bit significand, and the nearest representable values to
`2 ^ 31 - 1` are `2 ^ 31 - 128` and `2 ^ 31`, of which `2 ^ 31` is closer),
and the `as i32` cast of a float saturates at the `i32` bounds.
-/

namespace SinGen

/-- Rust `f32::round`: round half away from zero. -/
def roundHAZ {α : Type} [LinearOrderedField α] [FloorRing α] (x : α) : ℤ :=
  if 0 ≤ x then ⌊x + 1 / 2⌋ else ⌈x - 1 / 2⌉

/-- Rust `f32::rem_euclid` (exact-arithmetic semantics): for a positive
modulus `b` the result is `a - b * ⌊a / b⌋`. -/
def remE {α : Type} [LinearOrderedField α] [FloorRing α] (a b : α) : α :=
  a - b * ⌊a / b⌋

/-- `SampleWidth` from src/main.rs lines 16-25: bytes per sample. -/
inductive SampleWidth : Type where
  | width2Byte : SampleWidth
  | width3Byte : SampleWidth
  | width4Byte : SampleWidth
deriving DecidableEq

/-- The numeric value of the `SampleWidth` discriminant (2, 3 or 4 bytes). -/
def SampleWidth.bytes : SampleWidth → ℕ
  | .width2Byte => 2
  | .width3Byte => 3
  | .width4Byte => 4

/-- `get_range` from src/main.rs lines 98-104.  The source writes the f32
literals `32767.0`, `8388607.0`, `2147483647.0`; the first two are exactly
representable in f32, while `2147483647.0_f32` is the f32 value `2 ^ 31 =
2147483648` (nearest representable value to `2 ^ 31 - 1`). -/
def get_range {α : Type} [LinearOrderedField α] : SampleWidth → α
  | .width2Byte => 32767
  | .width3Byte => 8388607
  | .width4Byte => 2147483648

/-- Rust `as i32` on an (integral-valued) float: saturating conversion to
the `i32` range. -/
def as_i32 (n : ℤ) : ℤ :=
  if n < -2147483648 then -2147483648
  else if 2147483647 < n then 2147483647
  else n

/-- The scaled integer computed per sample in `float_samples_to_bytes`
(src/main.rs line 298): `(sample * max_val).round() as i32`. -/
def quantize {α : Type} [LinearOrderedField α] [FloorRing α]
    (w : SampleWidth) (s : α) : ℤ :=
  as_i32 (roundHAZ (s * get_range w))

/-- Rust `i32::to_le_bytes`: the four bytes of the two's-complement
little-endian representation. -/
def i32_le_bytes (n : ℤ) : List ℕ :=
  [((n % 4294967296).toNat) % 256,
   ((n % 4294967296).toNat) / 256 % 256,
   ((n % 4294967296).toNat) / 65536 % 256,
   ((n % 4294967296).toNat) / 16777216 % 256]

/-- The bytes one input sample contributes to the buffer in
`float_samples_to_bytes` (src/main.rs lines 297-305): the lowest
`sample_width` bytes of the scaled value, once per channel. -/
def sample_to_bytes {α : Type} [LinearOrderedField α] [FloorRing α]
    (channels : ℕ) (w : SampleWidth) (s : α) : List ℕ :=
  (List.replicate channels ((i32_le_bytes (quantize w s)).take w.bytes)).flatten

/-- `float_samples_to_bytes` from src/main.rs lines 293-307. -/
def float_samples_to_bytes {α : Type} [LinearOrderedField α] [FloorRing α]
    (samples : List α) (channels : ℕ) (w : SampleWidth) : List ℕ :=
  (samples.map (sample_to_bytes channels w)).flatten

/-- One step of the chirp loop body (src/main.rs lines 280-286): at loop
index `i`, with `t = i * dt`, the instantaneous frequency is
`f0 + (f1 - f0) * (t / dur)`; the phase advances by `tau * freq * dt` and is
then wrapped by `rem_euclid tau`. -/
def stepPhase {α : Type} [LinearOrderedField α] [FloorRing α]
    (tau f0 f1 dur dt : α) (i : ℕ) (phase : α) : α :=
  remE (phase + tau * (f0 + (f1 - f0) * (((i : α) * dt) / dur)) * dt) tau

/-- The loop of `generate_linear_chirp` (src/main.rs lines 279-288), with
the remaining iteration count as fuel, carrying the loop index `i` and the
running phase; each iteration pushes `sinF` of the freshly wrapped phase. -/
def chirpLoop {α : Type} [LinearOrderedField α] [FloorRing α]
    (sinF : α → α) (tau f0 f1 dur dt : α) : ℕ → ℕ → α → List α
  | 0, _, _ => []
  | fuel + 1, i, phase =>
    sinF (stepPhase tau f0 f1 dur dt i phase) ::
      chirpLoop sinF tau f0 f1 dur dt fuel (i + 1)
        (stepPhase tau f0 f1 dur dt i phase)

/-- `generate_linear_chirp` from src/main.rs lines 268-291:
`num_samples = (duration_secs * sample_rate).round() as usize` samples,
`dt = 1 / sample_rate`, phase starting at 0. -/
def generate_linear_chirp {α : Type} [LinearOrderedField α] [FloorRing α]
    (sinF : α → α) (tau f0 f1 sample_rate duration_secs : α) : List α :=
  chirpLoop sinF tau f0 f1 duration_secs (1 / sample_rate)
    ((roundHAZ (duration_secs * sample_rate)).toNat) 0 0

/-- The same loop collecting the wrapped phase values instead of their
sines; `chirpLoop_eq_map_chirpPhasesLoop` ties it to `chirpLoop`. -/
def chirpPhasesLoop {α : Type} [LinearOrderedField α] [FloorRing α]
    (tau f0 f1 dur dt : α) : ℕ → ℕ → α → List α
  | 0, _, _ => []
  | fuel + 1, i, phase =>
    stepPhase tau f0 f1 dur dt i phase ::
      chirpPhasesLoop tau f0 f1 dur dt fuel (i + 1)
        (stepPhase tau f0 f1 dur dt i phase)

/-- The sequence of phase values at sample boundaries of
`generate_linear_chirp`. -/
def chirpPhases {α : Type} [LinearOrderedField α] [FloorRing α]
    (tau f0 f1 sample_rate duration_secs : α) : List α :=
  chirpPhasesLoop tau f0 f1 duration_secs (1 / sample_rate)
    ((roundHAZ (duration_secs * sample_rate)).toNat) 0 0

/-- The phase after `k` further iterations of the chirp loop, starting from
loop index `i0` and phase `p`. -/
def phaseAt {α : Type} [LinearOrderedField α] [FloorRing α]
    (tau f0 f1 dur dt : α) (i0 : ℕ) (p : α) : ℕ → α
  | 0 => p
  | k + 1 => stepPhase tau f0 f1 dur dt (i0 + k) (phaseAt tau f0 f1 dur dt i0 p k)

/-- `total_samples` computed in `main` (src/main.rs lines 473-474):
`((duration_ms * sample_rate) / 1000.0).round() as usize`. -/
def total_samples {α : Type} [LinearOrderedField α] [FloorRing α]
    (duration_ms sample_rate : α) : ℕ :=
  (roundHAZ (duration_ms * sample_rate / 1000)).toNat

/-- `total_bytes` computed in `main` (src/main.rs line 475):
`total_samples * (sample_width * channels)`. -/
def total_bytes {α : Type} [LinearOrderedField α] [FloorRing α]
    (duration_ms sample_rate : α) (channels : ℕ) (w : SampleWidth) : ℕ :=
  total_samples duration_ms sample_rate * (w.bytes * channels)

/-- The byte buffer `main` builds (src/main.rs lines 477-483): the chirp with
`f0 = f1 = frequency` over `duration_ms / 1000` seconds, encoded by
`float_samples_to_bytes`. -/
def main_buffer {α : Type} [LinearOrderedField α] [FloorRing α]
    (sinF : α → α) (tau frequency duration_ms sample_rate : α)
    (channels : ℕ) (w : SampleWidth) : List ℕ :=
  float_samples_to_bytes
    (generate_linear_chirp sinF tau frequency frequency sample_rate
      (duration_ms / 1000))
    channels w

/-- The per-width positive bound as the spec states it:
`2 ^ (8 * width - 1) - 1`. -/
def spec_max_value {α : Type} [LinearOrderedField α] : SampleWidth → α
  | .width2Byte => 32767
  | .width3Byte => 8388607
  | .width4Byte => 2147483647

/-- Encoder following the words of the claim, for comparison with the
translation of the source: `q = round(s * max_value)` with `max_value` the
positive bound of the width, the lowest `sample_width` bytes of the
little-endian representation of `q`, appended once per channel. -/
def spec_claim_encode {α : Type} [LinearOrderedField α] [FloorRing α]
    (samples : List α) (channels : ℕ) (w : SampleWidth) : List ℕ :=
  samples.flatMap fun s =>
    (List.replicate channels
      ((i32_le_bytes (roundHAZ (s * spec_max_value w))).take w.bytes)).flatten

/-- Byte `k` of the little-endian two's-complement representation of the
(saturated) scaled sample value. -/
def byteAt (n : ℤ) (k : ℕ) : ℕ :=
  ((n % 4294967296).toNat) / 256 ^ k % 256

/-- Little-endian byte serialization of a u16 field. -/
def u16le (n : ℕ) : List ℕ := [n % 256, n / 256 % 256]

/-- Little-endian byte serialization of a u32 field. -/
def u32le (n : ℕ) : List ℕ :=
  [n % 256, n / 256 % 256, n / 65536 % 256, n / 16777216 % 256]

/-- `WavHeader` from src/main.rs lines 49-65: the packed 44-byte RIFF/WAVE
header record (tags as byte lists, integer fields as naturals within their
declared width). -/
structure WavHeader : Type where
  chunk_id : List ℕ
  chunk_size : ℕ
  format : List ℕ
  subchunk_1_id : List ℕ
  subchunk_1_size : ℕ
  audio_format : ℕ
  num_channels : ℕ
  sample_rate : ℕ
  byte_rate : ℕ
  block_align : ℕ
  bits_per_sample : ℕ
  subchunk_2_id : List ℕ
  subchunk_2_size : ℕ

/-- `WavHeader::new` from src/main.rs lines 67-85 (tag bytes are the ASCII
codes of RIFF, WAVE, fmt-space and data). -/
def WavHeader.new : WavHeader where
  chunk_id := [82, 73, 70, 70]
  chunk_size := 0
  format := [87, 65, 86, 69]
  subchunk_1_id := [102, 109, 116, 32]
  subchunk_1_size := 16
  audio_format := 1
  num_channels := 1
  sample_rate := 44100
  byte_rate := 176400
  block_align := 2
  bits_per_sample := 16
  subchunk_2_id := [100, 97, 116, 97]
  subchunk_2_size := 0

/-- The 44 bytes of the packed header as `create_wav_file_array` writes them
(src/main.rs lines 461-465; the source copies the packed struct memory,
which on the little-endian targets the program assumes is exactly this
field-by-field little-endian layout). -/
def WavHeader.serialize (h : WavHeader) : List ℕ :=
  h.chunk_id ++ u32le h.chunk_size ++ h.format ++ h.subchunk_1_id ++
  u32le h.subchunk_1_size ++ u16le h.audio_format ++ u16le h.num_channels ++
  u32le h.sample_rate ++ u32le h.byte_rate ++ u16le h.block_align ++
  u16le h.bits_per_sample ++ h.subchunk_2_id ++ u32le h.subchunk_2_size

/-- `create_wav_file_array` from src/main.rs lines 443-468, with the u32 and
u16 field arithmetic of the source taken modulo the type bounds. -/
def create_wav_file_array (buffer : List ℕ) (sample_rate channels : ℕ)
    (w : SampleWidth) : List ℕ :=
  WavHeader.serialize
    { WavHeader.new with
      chunk_size := (36 + buffer.length) % 4294967296
      num_channels := channels
      sample_rate := sample_rate
      byte_rate := sample_rate * channels * w.bytes % 4294967296
      block_align := channels * w.bytes % 65536
      bits_per_sample := w.bytes * 8
      subchunk_2_size := buffer.length % 4294967296 }
  ++ buffer

/-- The u16 value stored little-endian at byte offset `off`. -/
def readU16 (l : List ℕ) (off : ℕ) : ℕ :=
  l.getD off 0 + 256 * l.getD (off + 1) 0

/-- The u32 value stored little-endian at byte offset `off`. -/
def readU32 (l : List ℕ) (off : ℕ) : ℕ :=
  l.getD off 0 + 256 * l.getD (off + 1) 0 + 65536 * l.getD (off + 2) 0 +
    16777216 * l.getD (off + 3) 0

/-- The loop of the spec steady-tone oscillator, with the per-sample
increment `inc` precomputed: emit `sinF phase`, then advance and wrap. -/
def steadyToneLoop {α : Type} [LinearOrderedField α] [FloorRing α]
    (sinF : α → α) (tau inc : α) : ℕ → α → List α
  | 0, _ => []
  | fuel + 1, phase => sinF phase :: steadyToneLoop sinF tau inc fuel (remE (phase + inc) tau)

/-- Modelled from the spec: the source has no separate steady-tone
oscillator (its `main` reuses `generate_linear_chirp` with `f0 = f1`), so
the spec 4.1 oscillator is taken from the spec words: produce
`round(duration_ms * sample_rate / 1000)` samples; the phase accumulator
starts at 0; each sample is `sin(phase)`; after producing a sample the
phase advances by `tau * frequency / sample_rate` and is wrapped into
`[0, tau)` by the euclidean remainder. -/
def steady_tone {α : Type} [LinearOrderedField α] [FloorRing α]
    (sinF : α → α) (tau frequency sample_rate duration_ms : α) : List α :=
  steadyToneLoop sinF tau (tau * frequency / sample_rate)
    (total_samples duration_ms sample_rate) 0

/- ### Helper lemmas about the loops -/

theorem chirpLoop_length {α : Type} [LinearOrderedField α] [FloorRing α]
    (sinF : α → α) (tau f0 f1 dur dt : α) :
    ∀ (fuel i : ℕ) (p : α), (chirpLoop sinF tau f0 f1 dur dt fuel i p).length = fuel := by
  intro fuel
  induction fuel with
  | zero => intro i p; rfl
  | succ n ih => intro i p; simp [chirpLoop, ih]

theorem generate_linear_chirp_length {α : Type} [LinearOrderedField α] [FloorRing α]
    (sinF : α → α) (tau f0 f1 rate dur : α) :
    (generate_linear_chirp sinF tau f0 f1 rate dur).length
      = (roundHAZ (dur * rate)).toNat := by
  simp [generate_linear_chirp, chirpLoop_length]

theorem i32_le_bytes_length (n : ℤ) : (i32_le_bytes n).length = 4 := rfl

theorem flatten_replicate_length {β : Type} (c : ℕ) (l : List β) :
    (List.replicate c l).flatten.length = c * l.length := by
  induction c with
  | zero => simp
  | succ n ih => simp [List.replicate_succ, ih, Nat.succ_mul, Nat.add_comm]

theorem sample_width_bytes_le_four (w : SampleWidth) : w.bytes ≤ 4 := by
  cases w <;> simp [SampleWidth.bytes]

theorem sample_to_bytes_length {α : Type} [LinearOrderedField α] [FloorRing α]
    (channels : ℕ) (w : SampleWidth) (s : α) :
    (sample_to_bytes channels w s).length = channels * w.bytes := by
  have h4 := sample_width_bytes_le_four w
  simp [sample_to_bytes, flatten_replicate_length, i32_le_bytes_length]
  omega

theorem float_samples_to_bytes_length {α : Type} [LinearOrderedField α] [FloorRing α]
    (samples : List α) (channels : ℕ) (w : SampleWidth) :
    (float_samples_to_bytes samples channels w).length
      = samples.length * (channels * w.bytes) := by
  induction samples with
  | nil => simp [float_samples_to_bytes]
  | cons s rest ih =>
    simp only [float_samples_to_bytes, List.map_cons, List.flatten_cons,
      List.length_append, List.length_cons, sample_to_bytes_length] at ih ⊢
    rw [ih]
    ring

theorem roundHAZ_zero {α : Type} [LinearOrderedField α] [FloorRing α] :
    roundHAZ (0 : α) = 0 := by
  rw [roundHAZ, if_pos le_rfl, zero_add]
  rw [show ((1 : α) / 2) = (1 / 2 : α) from rfl]
  rw [Int.floor_eq_zero_iff.mpr]
  constructor
  · norm_num
  · norm_num

/- ### C1: buffer length -/

/-- C1: for every valid config (duration_ms ≥ 0, channels in {1,2},
sample_width in {2,3,4}, positive sample_rate), the byte length of the
buffer built by `main` equals
`round(duration_ms * sample_rate / 1000) * channel_count * bytes_per_sample`,
which is also the value of `total_bytes`; the chirp produces
`round((duration_ms / 1000) * sample_rate)` samples, the same count. -/
theorem c1_buffer_length (frequency duration_ms sample_rate : ℝ)
    (channels : ℕ) (w : SampleWidth)
    (hd : 0 ≤ duration_ms) (hr : 0 < sample_rate)
    (hch : channels = 1 ∨ channels = 2) :
    (main_buffer Real.sin (2 * Real.pi) frequency duration_ms sample_rate
        channels w).length
      = total_samples duration_ms sample_rate * channels * w.bytes ∧
    total_bytes duration_ms sample_rate channels w
      = total_samples duration_ms sample_rate * channels * w.bytes := by
  constructor
  · rw [main_buffer, float_samples_to_bytes_length, generate_linear_chirp_length]
    rw [show duration_ms / 1000 * sample_rate = duration_ms * sample_rate / 1000
      by ring]
    rw [total_samples, Nat.mul_assoc]
  · rw [total_bytes]
    ring

theorem c1_buffer_length_witness :
    0 ≤ (1 : ℝ) ∧ 0 < (16000 : ℝ) ∧ ((1 : ℕ) = 1 ∨ (1 : ℕ) = 2) ∧
    ((main_buffer Real.sin (2 * Real.pi) 1000 1 16000 1
        SampleWidth.width2Byte).length
      = total_samples (1 : ℝ) 16000 * 1 * SampleWidth.width2Byte.bytes ∧
    total_bytes (1 : ℝ) 16000 1 SampleWidth.width2Byte
      = total_samples (1 : ℝ) 16000 * 1 * SampleWidth.width2Byte.bytes) :=
  ⟨by norm_num, by norm_num, Or.inl rfl,
    c1_buffer_length 1000 1 16000 1 SampleWidth.width2Byte
      (by norm_num) (by norm_num) (Or.inl rfl)⟩

/- ### C5: full-scale encoding -/

/-- C5: an input amplitude of exactly 1.0 is encoded as integer 32767 for a
2-byte sample width, 8388607 for 3 bytes, and 2147483647 (not 2147483648)
for 4 bytes. -/
theorem c5_full_scale_encoding :
    quantize SampleWidth.width2Byte (1 : ℚ) = 32767 ∧
    quantize SampleWidth.width3Byte (1 : ℚ) = 8388607 ∧
    quantize SampleWidth.width4Byte (1 : ℚ) = 2147483647 := by
  refine ⟨?_, ?_, ?_⟩ <;>
    norm_num [quantize, roundHAZ, as_i32, get_range]

/- ### C7: zero duration -/

/-- C7: with duration 0 the chirp generator produces no samples (the loop
body, and with it the division by the zero duration, never runs), the byte
buffer of `main` is empty, and the reported sample and byte counts are 0. -/
theorem c7_zero_duration (f0 f1 frequency sample_rate : ℝ)
    (channels : ℕ) (w : SampleWidth) :
    generate_linear_chirp Real.sin (2 * Real.pi) f0 f1 sample_rate 0 = [] ∧
    main_buffer Real.sin (2 * Real.pi) frequency 0 sample_rate channels w = [] ∧
    total_samples (0 : ℝ) sample_rate = 0 ∧
    total_bytes (0 : ℝ) sample_rate channels w = 0 := by
  have hgen : ∀ g0 g1 : ℝ,
      generate_linear_chirp Real.sin (2 * Real.pi) g0 g1 sample_rate 0 = [] := by
    intro g0 g1
    rw [generate_linear_chirp, zero_mul, roundHAZ_zero]
    rfl
  have hts : total_samples (0 : ℝ) sample_rate = 0 := by
    rw [total_samples, zero_mul, zero_div, roundHAZ_zero]
    rfl
  refine ⟨hgen f0 f1, ?_, hts, ?_⟩
  · rw [main_buffer, zero_div, hgen]
    rfl
  · rw [total_bytes, hts, Nat.zero_mul]

/- ### C2: quantizer and encoder layout -/

theorem i32_le_bytes_getElem (n : ℤ) (k : ℕ) (hk : k < 4) :
    (i32_le_bytes n)[k]? = some (byteAt n k) := by
  interval_cases k <;>
    simp [i32_le_bytes, byteAt, pow_succ, Nat.div_div_eq_div_mul]

theorem flatten_replicate_getElem {β : Type} (c : ℕ) (l : List β) (j k : ℕ)
    (hj : j < c) (hk : k < l.length) :
    (List.replicate c l).flatten[j * l.length + k]? = l[k]? := by
  induction c generalizing j with
  | zero => omega
  | succ m ih =>
    rw [List.replicate_succ, List.flatten_cons]
    cases j with
    | zero =>
      rw [Nat.zero_mul, Nat.zero_add]
      exact List.getElem?_append_left hk
    | succ i =>
      have hge : l.length ≤ (i + 1) * l.length + k := by
        calc l.length ≤ (i + 1) * l.length := Nat.le_mul_of_pos_left _ (Nat.succ_pos i)
          _ ≤ (i + 1) * l.length + k := Nat.le_add_right _ _
      rw [List.getElem?_append_right hge]
      have harith : (i + 1) * l.length + k - l.length = i * l.length + k := by
        have : (i + 1) * l.length = i * l.length + l.length := by ring
        omega
      rw [harith]
      exact ih i (by omega)

theorem sample_to_bytes_getElem {α : Type} [LinearOrderedField α] [FloorRing α]
    (channels : ℕ) (w : SampleWidth) (s : α) (j k : ℕ)
    (hj : j < channels) (hk : k < w.bytes) :
    (sample_to_bytes channels w s)[j * w.bytes + k]? = some (byteAt (quantize w s) k) := by
  have h4 := sample_width_bytes_le_four w
  have hlen : ((i32_le_bytes (quantize w s)).take w.bytes).length = w.bytes := by
    simp [i32_le_bytes_length]
    omega
  rw [sample_to_bytes]
  rw [show j * w.bytes + k
      = j * ((i32_le_bytes (quantize w s)).take w.bytes).length + k by rw [hlen]]
  rw [flatten_replicate_getElem channels _ j k hj (by omega)]
  rw [List.getElem?_take, if_pos hk]
  exact i32_le_bytes_getElem _ k (by omega)

/-- The amended C2 claim, refuted as stated by `c2_counterexample` below:
the buffer is laid out frame-major (sample `i` channel 0 bytes, sample `i`
channel 1 bytes, then sample `i + 1`), each channel of a frame carries the
same lowest `sample_width` bytes of the little-endian representation of the
scaled sample value; the scaled value is `round(s * scale)` saturated to the
i32 range, where `scale` is the positive bound for widths 2 and 3 but
`2147483648 = 2 ^ 31` (the f32 value of the source literal `2147483647.0`)
for width 4. -/
theorem c2_frame_layout {samples : List ℚ} {channels : ℕ} {w : SampleWidth}
    {i j k : ℕ} (hi : i < samples.length) (hj : j < channels) (hk : k < w.bytes) :
    (float_samples_to_bytes samples channels w)[i * (channels * w.bytes) + j * w.bytes + k]?
      = some (byteAt (as_i32 (roundHAZ (samples.getD i 0 * get_range w))) k) := by
  induction samples generalizing i with
  | nil => simp at hi
  | cons s rest ih =>
    have hcons : float_samples_to_bytes (s :: rest) channels w
        = sample_to_bytes channels w s ++ float_samples_to_bytes rest channels w := by
      simp [float_samples_to_bytes]
    rw [hcons]
    cases i with
    | zero =>
      rw [Nat.zero_mul, Nat.zero_add]
      rw [List.getElem?_append_left
        (by rw [sample_to_bytes_length]; clear hcons;
            calc j * w.bytes + k < j * w.bytes + w.bytes := by omega
              _ = (j + 1) * w.bytes := by ring
              _ ≤ channels * w.bytes := Nat.mul_le_mul_right _ (by omega))]
      rw [sample_to_bytes_getElem channels w s j k hj hk]
      rfl
    | succ m =>
      have hlen : (sample_to_bytes channels w s).length = channels * w.bytes :=
        sample_to_bytes_length channels w s
      have hge : (sample_to_bytes channels w s).length
          ≤ (m + 1) * (channels * w.bytes) + j * w.bytes + k := by
        rw [hlen]
        calc channels * w.bytes ≤ (m + 1) * (channels * w.bytes) := by
              exact Nat.le_mul_of_pos_left _ (Nat.succ_pos m)
          _ ≤ (m + 1) * (channels * w.bytes) + j * w.bytes + k := by omega
      rw [List.getElem?_append_right hge]
      have harith : (m + 1) * (channels * w.bytes) + j * w.bytes + k
          - (sample_to_bytes channels w s).length
          = m * (channels * w.bytes) + j * w.bytes + k := by
        rw [hlen]
        have : (m + 1) * (channels * w.bytes)
            = m * (channels * w.bytes) + channels * w.bytes := by ring
        omega
      rw [harith]
      have := ih (i := m) (by simpa using Nat.lt_of_succ_lt_succ hi)
      simpa using this

theorem c2_frame_layout_witness :
    0 < ([(1 : ℚ) / 2] : List ℚ).length ∧ 1 < 2 ∧ 0 < SampleWidth.width2Byte.bytes ∧
    (float_samples_to_bytes [(1 : ℚ) / 2] 2 SampleWidth.width2Byte)[0 * (2 * SampleWidth.width2Byte.bytes) + 1 * SampleWidth.width2Byte.bytes + 0]?
      = some (byteAt (as_i32 (roundHAZ (([(1 : ℚ) / 2].getD 0 0) * get_range SampleWidth.width2Byte))) 0) :=
  ⟨by norm_num, by norm_num, by norm_num [SampleWidth.bytes],
    c2_frame_layout (by norm_num) (by norm_num) (by norm_num [SampleWidth.bytes])⟩

/-- C2, refuted as stated: at sample width 4 the code does not compute
`round(s * max_value)` with `max_value` the positive bound 2147483647.  For
the input sample `3 / 2 ^ 32` (exactly representable in f32) the code,
whose f32 scaling constant is `2 ^ 31`, scales to exactly 1.5, rounds half
away from zero to 2 and emits bytes `[2, 0, 0, 0]`, while the formula of
the claim gives `round(1.4999999993) = 1`, bytes `[1, 0, 0, 0]`. -/
theorem c2_counterexample :
    float_samples_to_bytes [(3 : ℚ) / 4294967296] 1 SampleWidth.width4Byte
      = [2, 0, 0, 0] ∧
    spec_claim_encode [(3 : ℚ) / 4294967296] 1 SampleWidth.width4Byte
      = [1, 0, 0, 0] ∧
    float_samples_to_bytes [(3 : ℚ) / 4294967296] 1 SampleWidth.width4Byte
      ≠ spec_claim_encode [(3 : ℚ) / 4294967296] 1 SampleWidth.width4Byte := by
  have hcode : float_samples_to_bytes [(3 : ℚ) / 4294967296] 1 SampleWidth.width4Byte
      = [2, 0, 0, 0] := by
    have hq : quantize SampleWidth.width4Byte ((3 : ℚ) / 4294967296) = 2 := by
      norm_num [quantize, roundHAZ, as_i32, get_range]
    simp [float_samples_to_bytes, sample_to_bytes, hq, SampleWidth.bytes,
      i32_le_bytes, List.replicate]
  have hspec : spec_claim_encode [(3 : ℚ) / 4294967296] 1 SampleWidth.width4Byte
      = [1, 0, 0, 0] := by
    have hq : roundHAZ (((3 : ℚ) / 4294967296) * spec_max_value SampleWidth.width4Byte)
        = 1 := by
      norm_num [roundHAZ, spec_max_value]
    simp [spec_claim_encode, hq, SampleWidth.bytes, i32_le_bytes, List.replicate]
  refine ⟨hcode, hspec, ?_⟩
  rw [hcode, hspec]
  simp

/- ### C3: WAV container layout -/

/-- C3: the WAV output is exactly 44 header bytes followed by the data
verbatim; the ASCII tags RIFF, WAVE, fmt-space, data sit at offsets 0, 8,
12, 36; subchunk1_size = 16 and audio_format = 1; and the derived
little-endian fields are chunk_size = 36 + N, byte_rate = sample_rate *
channels * bytes_per_sample, block_align = channels * bytes_per_sample,
bits_per_sample = 8 * bytes_per_sample, subchunk_2_size = N. -/
theorem c3_wav_layout (buffer : List ℕ) (sample_rate channels : ℕ)
    (w : SampleWidth)
    (hch : channels = 1 ∨ channels = 2)
    (hrate : sample_rate < 4294967296)
    (hN : 36 + buffer.length < 4294967296)
    (hbr : sample_rate * channels * w.bytes < 4294967296) :
    (create_wav_file_array buffer sample_rate channels w).length
        = 44 + buffer.length ∧
    (create_wav_file_array buffer sample_rate channels w).take 4
        = [82, 73, 70, 70] ∧
    ((create_wav_file_array buffer sample_rate channels w).drop 8).take 4
        = [87, 65, 86, 69] ∧
    ((create_wav_file_array buffer sample_rate channels w).drop 12).take 4
        = [102, 109, 116, 32] ∧
    ((create_wav_file_array buffer sample_rate channels w).drop 36).take 4
        = [100, 97, 116, 97] ∧
    readU32 (create_wav_file_array buffer sample_rate channels w) 4
        = 36 + buffer.length ∧
    readU32 (create_wav_file_array buffer sample_rate channels w) 16 = 16 ∧
    readU16 (create_wav_file_array buffer sample_rate channels w) 20 = 1 ∧
    readU16 (create_wav_file_array buffer sample_rate channels w) 22
        = channels ∧
    readU32 (create_wav_file_array buffer sample_rate channels w) 24
        = sample_rate ∧
    readU32 (create_wav_file_array buffer sample_rate channels w) 28
        = sample_rate * channels * w.bytes ∧
    readU16 (create_wav_file_array buffer sample_rate channels w) 32
        = channels * w.bytes ∧
    readU16 (create_wav_file_array buffer sample_rate channels w) 34
        = w.bytes * 8 ∧
    readU32 (create_wav_file_array buffer sample_rate channels w) 40
        = buffer.length ∧
    (create_wav_file_array buffer sample_rate channels w).drop 44 = buffer := by
  have hc2 : channels ≤ 2 := by rcases hch with h | h <;> omega
  have hb4 := sample_width_bytes_le_four w
  have hba : channels * w.bytes ≤ 8 := by
    calc channels * w.bytes ≤ 2 * 4 := Nat.mul_le_mul hc2 hb4
      _ = 8 := rfl
  have hbits : w.bytes * 8 ≤ 32 := by omega
  have hser : create_wav_file_array buffer sample_rate channels w =
      82 :: 73 :: 70 :: 70 ::
      ((36 + buffer.length) % 4294967296 % 256) ::
      ((36 + buffer.length) % 4294967296 / 256 % 256) ::
      ((36 + buffer.length) % 4294967296 / 65536 % 256) ::
      ((36 + buffer.length) % 4294967296 / 16777216 % 256) ::
      87 :: 65 :: 86 :: 69 ::
      102 :: 109 :: 116 :: 32 ::
      16 :: 0 :: 0 :: 0 ::
      1 :: 0 ::
      (channels % 256) :: (channels / 256 % 256) ::
      (sample_rate % 256) :: (sample_rate / 256 % 256) ::
      (sample_rate / 65536 % 256) :: (sample_rate / 16777216 % 256) ::
      (sample_rate * channels * w.bytes % 4294967296 % 256) ::
      (sample_rate * channels * w.bytes % 4294967296 / 256 % 256) ::
      (sample_rate * channels * w.bytes % 4294967296 / 65536 % 256) ::
      (sample_rate * channels * w.bytes % 4294967296 / 16777216 % 256) ::
      (channels * w.bytes % 65536 % 256) ::
      (channels * w.bytes % 65536 / 256 % 256) ::
      (w.bytes * 8 % 256) :: (w.bytes * 8 / 256 % 256) ::
      100 :: 97 :: 116 :: 97 ::
      (buffer.length % 4294967296 % 256) ::
      (buffer.length % 4294967296 / 256 % 256) ::
      (buffer.length % 4294967296 / 65536 % 256) ::
      (buffer.length % 4294967296 / 16777216 % 256) ::
      buffer := by
    simp [create_wav_file_array, WavHeader.serialize, WavHeader.new, u32le, u16le]
  refine ⟨?_, ?_, ?_, ?_, ?_, ?_, ?_, ?_, ?_, ?_, ?_, ?_, ?_, ?_, ?_⟩ <;>
      rw [hser]
  · simp only [List.length_cons]
    omega
  · rfl
  · rfl
  · rfl
  · rfl
  · simp only [readU32, List.getD_cons_zero, List.getD_cons_succ]
    omega
  · rfl
  · rfl
  · simp only [readU16, List.getD_cons_zero, List.getD_cons_succ]
    omega
  · simp only [readU32, List.getD_cons_zero, List.getD_cons_succ]
    omega
  · simp only [readU32, List.getD_cons_zero, List.getD_cons_succ]
    omega
  · simp only [readU16, List.getD_cons_zero, List.getD_cons_succ]
    omega
  · simp only [readU16, List.getD_cons_zero, List.getD_cons_succ]
    omega
  · simp only [readU32, List.getD_cons_zero, List.getD_cons_succ]
    omega
  · rfl

theorem c3_wav_layout_witness :
    ((2 : ℕ) = 1 ∨ (2 : ℕ) = 2) ∧ (44100 : ℕ) < 4294967296 ∧
    36 + ([9, 9, 9, 9] : List ℕ).length < 4294967296 ∧
    44100 * 2 * SampleWidth.width2Byte.bytes < 4294967296 ∧
    (readU32 (create_wav_file_array [9, 9, 9, 9] 44100 2 SampleWidth.width2Byte) 4
        = 36 + ([9, 9, 9, 9] : List ℕ).length ∧
      readU32 (create_wav_file_array [9, 9, 9, 9] 44100 2 SampleWidth.width2Byte) 28
        = 44100 * 2 * SampleWidth.width2Byte.bytes ∧
      readU16 (create_wav_file_array [9, 9, 9, 9] 44100 2 SampleWidth.width2Byte) 32
        = 2 * SampleWidth.width2Byte.bytes ∧
      readU16 (create_wav_file_array [9, 9, 9, 9] 44100 2 SampleWidth.width2Byte) 34
        = SampleWidth.width2Byte.bytes * 8) := by
  have h := c3_wav_layout [9, 9, 9, 9] 44100 2 SampleWidth.width2Byte (Or.inr rfl)
    (by norm_num) (by norm_num) (by norm_num [SampleWidth.bytes])
  exact ⟨Or.inr rfl, by norm_num, by norm_num, by norm_num [SampleWidth.bytes],
    h.2.2.2.2.2.1,
    h.2.2.2.2.2.2.2.2.2.2.1,
    h.2.2.2.2.2.2.2.2.2.2.2.1,
    h.2.2.2.2.2.2.2.2.2.2.2.2.1⟩

/- ### C10: width-4 full-scale asymmetry -/

/-- C10: for a 4-byte sample width the quantizer is asymmetric at full
scale: the scaling constant (the f32 reading of the literal 2147483647.0)
is 2147483648 = 2 ^ 31, the value +1.0 scales and rounds to 2147483648 and
only the saturating `as i32` cast brings it to 2147483647, while -1.0
encodes to -2147483648, the full negative i32 bound. -/
theorem c10_width4_full_scale_asymmetry :
    get_range SampleWidth.width4Byte = (2147483648 : ℚ) ∧
    roundHAZ ((1 : ℚ) * get_range SampleWidth.width4Byte) = 2147483648 ∧
    quantize SampleWidth.width4Byte (1 : ℚ) = 2147483647 ∧
    quantize SampleWidth.width4Byte (-1 : ℚ) = -2147483648 := by
  refine ⟨rfl, ?_, ?_, ?_⟩ <;>
    norm_num [quantize, roundHAZ, as_i32, get_range, Int.ceil_neg]

/- ### Helper lemmas for the phase claims -/

theorem remE_nonneg {α : Type} [LinearOrderedField α] [FloorRing α]
    (a b : α) (hb : 0 < b) : 0 ≤ remE a b := by
  rw [remE, sub_nonneg]
  calc b * ⌊a / b⌋ ≤ b * (a / b) :=
        mul_le_mul_of_nonneg_left (Int.floor_le _) hb.le
    _ = a := by rw [mul_comm]; exact div_mul_cancel₀ a hb.ne'

theorem remE_lt {α : Type} [LinearOrderedField α] [FloorRing α]
    (a b : α) (hb : 0 < b) : remE a b < b := by
  rw [remE, sub_lt_iff_lt_add]
  calc a = b * (a / b) := by rw [mul_comm]; exact (div_mul_cancel₀ a hb.ne').symm
    _ < b * (⌊a / b⌋ + 1) := (mul_lt_mul_left hb).mpr (Int.lt_floor_add_one _)
    _ = b + b * ⌊a / b⌋ := by ring

theorem chirpPhasesLoop_bounds {α : Type} [LinearOrderedField α] [FloorRing α]
    (tau f0 f1 dur dt : α) (htau : 0 < tau) :
    ∀ (fuel i : ℕ) (p x : α), x ∈ chirpPhasesLoop tau f0 f1 dur dt fuel i p →
      0 ≤ x ∧ x < tau := by
  intro fuel
  induction fuel with
  | zero => intro i p x hx; simp [chirpPhasesLoop] at hx
  | succ m ih =>
    intro i p x hx
    rw [chirpPhasesLoop] at hx
    rcases List.mem_cons.mp hx with h | h
    · subst h
      rw [stepPhase]
      exact ⟨remE_nonneg _ _ htau, remE_lt _ _ htau⟩
    · exact ih (i + 1) _ x h

theorem chirpLoop_eq_map {α : Type} [LinearOrderedField α] [FloorRing α]
    (sinF : α → α) (tau f0 f1 dur dt : α) :
    ∀ (fuel i : ℕ) (p : α),
      chirpLoop sinF tau f0 f1 dur dt fuel i p
        = (chirpPhasesLoop tau f0 f1 dur dt fuel i p).map sinF := by
  intro fuel
  induction fuel with
  | zero => intro i p; rfl
  | succ m ih => intro i p; simp [chirpLoop, chirpPhasesLoop, ih]

theorem generate_eq_map_phases {α : Type} [LinearOrderedField α] [FloorRing α]
    (sinF : α → α) (tau f0 f1 rate dur : α) :
    generate_linear_chirp sinF tau f0 f1 rate dur
      = (chirpPhases tau f0 f1 rate dur).map sinF :=
  chirpLoop_eq_map sinF tau f0 f1 dur (1 / rate) _ 0 0

theorem phaseAt_shift {α : Type} [LinearOrderedField α] [FloorRing α]
    (tau f0 f1 dur dt : α) (i0 : ℕ) (p : α) :
    ∀ m, phaseAt tau f0 f1 dur dt (i0 + 1) (stepPhase tau f0 f1 dur dt i0 p) m
      = phaseAt tau f0 f1 dur dt i0 p (m + 1) := by
  intro m
  induction m with
  | zero => simp [phaseAt]
  | succ k ih =>
    rw [phaseAt, ih]
    rw [show phaseAt tau f0 f1 dur dt i0 p (k + 1 + 1)
        = stepPhase tau f0 f1 dur dt (i0 + (k + 1)) (phaseAt tau f0 f1 dur dt i0 p (k + 1))
      from rfl]
    rw [show i0 + 1 + k = i0 + (k + 1) by omega]

theorem chirpLoop_getElem {α : Type} [LinearOrderedField α] [FloorRing α]
    (sinF : α → α) (tau f0 f1 dur dt : α) :
    ∀ (fuel i0 : ℕ) (p : α) (k : ℕ), k < fuel →
      (chirpLoop sinF tau f0 f1 dur dt fuel i0 p)[k]?
        = some (sinF (phaseAt tau f0 f1 dur dt i0 p (k + 1))) := by
  intro fuel
  induction fuel with
  | zero => intro i0 p k hk; omega
  | succ m ih =>
    intro i0 p k hk
    rw [chirpLoop]
    cases k with
    | zero => simp [phaseAt]
    | succ k2 =>
      rw [List.getElem?_cons_succ, ih (i0 + 1) _ k2 (by omega), phaseAt_shift]

theorem generate_linear_chirp_getElem {α : Type} [LinearOrderedField α] [FloorRing α]
    (sinF : α → α) (tau f0 f1 rate dur : α) (k : ℕ)
    (hk : k < (roundHAZ (dur * rate)).toNat) :
    (generate_linear_chirp sinF tau f0 f1 rate dur)[k]?
      = some (sinF (phaseAt tau f0 f1 dur (1 / rate) 0 0 (k + 1))) := by
  rw [generate_linear_chirp]
  exact chirpLoop_getElem sinF tau f0 f1 dur (1 / rate) _ 0 0 k hk

theorem generate_linear_chirp_head {α : Type} [LinearOrderedField α] [FloorRing α]
    (sinF : α → α) (tau f0 f1 rate dur : α)
    (h : 1 ≤ (roundHAZ (dur * rate)).toNat) :
    (generate_linear_chirp sinF tau f0 f1 rate dur).head?
      = some (sinF (remE (tau * f0 * (1 / rate)) tau)) := by
  rw [List.head?_eq_getElem?,
    generate_linear_chirp_getElem sinF tau f0 f1 rate dur 0 (by omega)]
  simp [phaseAt, stepPhase]

theorem steadyToneLoop_getElem {α : Type} [LinearOrderedField α] [FloorRing α]
    (sinF : α → α) (tau inc : α) :
    ∀ (fuel : ℕ) (p : α) (j : ℕ), j < fuel →
      (steadyToneLoop sinF tau inc fuel p)[j]?
        = some (sinF ((fun q => remE (q + inc) tau)^[j] p)) := by
  intro fuel
  induction fuel with
  | zero => intro p j hj; omega
  | succ m ih =>
    intro p j hj
    rw [steadyToneLoop]
    cases j with
    | zero => simp
    | succ j2 =>
      rw [List.getElem?_cons_succ, ih _ j2 (by omega), Function.iterate_succ_apply]

theorem stepPhase_const {α : Type} [LinearOrderedField α] [FloorRing α]
    (tau f0 dur dt : α) (i : ℕ) (p : α) :
    stepPhase tau f0 f0 dur dt i p = remE (p + tau * f0 * dt) tau := by
  rw [stepPhase, sub_self, zero_mul, add_zero]

theorem phaseAt_const {α : Type} [LinearOrderedField α] [FloorRing α]
    (tau f0 dur dt : α) (i0 : ℕ) (p : α) :
    ∀ k, phaseAt tau f0 f0 dur dt i0 p k
      = (fun q => remE (q + tau * f0 * dt) tau)^[k] p := by
  intro k
  induction k with
  | zero => rfl
  | succ m ih => rw [phaseAt, stepPhase_const, ih, Function.iterate_succ_apply']

theorem chirpPhases_trivial_eval :
    chirpPhases (2 * Real.pi) (0 : ℝ) 0 1 1 = [0] := by
  rw [chirpPhases]
  rw [show (roundHAZ ((1 : ℝ) * 1)).toNat = 1 by norm_num [roundHAZ]]
  rw [show (1 : ℕ) = 0 + 1 from rfl, chirpPhasesLoop, chirpPhasesLoop]
  simp [stepPhase, remE]

/- ### C6: phase wrap invariant -/

/-- C6: for every start frequency, end frequency, sample rate and duration,
every phase value at a sample boundary of the chirp loop (that is, after the
per-step wrap) lies in the interval from 0 inclusive to 2 pi exclusive,
however many samples are produced. -/
theorem c6_phase_invariant (f0 f1 rate dur x : ℝ)
    (hx : x ∈ chirpPhases (2 * Real.pi) f0 f1 rate dur) :
    0 ≤ x ∧ x < 2 * Real.pi := by
  rw [chirpPhases] at hx
  exact chirpPhasesLoop_bounds _ _ _ _ _ Real.two_pi_pos _ _ _ _ hx

theorem c6_phase_invariant_witness :
    ((0 : ℝ) ∈ chirpPhases (2 * Real.pi) (0 : ℝ) 0 1 1) ∧
    (0 ≤ (0 : ℝ) ∧ (0 : ℝ) < 2 * Real.pi) := by
  have hmem : (0 : ℝ) ∈ chirpPhases (2 * Real.pi) (0 : ℝ) 0 1 1 := by
    rw [chirpPhases_trivial_eval]
    exact List.mem_singleton.mpr rfl
  exact ⟨hmem, c6_phase_invariant 0 0 1 1 0 hmem⟩

/- ### C8: chirp per-sample formula and range -/

/-- C8: for a chirp with positive duration, sample `k` is the sine of the
phase obtained by advancing, at each step `i`, by
`2 pi * (f0 + (f1 - f0) * ((i * dt) / duration)) * dt` with `dt = 1 / rate`
and wrapping into `[0, 2 pi)` (the iterated `stepPhase`, here `phaseAt`),
the phase being advanced and wrapped before the sample is emitted; and every
emitted sample lies in `[-1, 1]`. -/
theorem c8_chirp_formula (f0 f1 rate dur : ℝ) (hdur : 0 < dur) :
    (∀ k, k < (roundHAZ (dur * rate)).toNat →
      (generate_linear_chirp Real.sin (2 * Real.pi) f0 f1 rate dur)[k]?
        = some (Real.sin (phaseAt (2 * Real.pi) f0 f1 dur (1 / rate) 0 0 (k + 1)))) ∧
    (∀ s ∈ generate_linear_chirp Real.sin (2 * Real.pi) f0 f1 rate dur,
      -1 ≤ s ∧ s ≤ 1) := by
  constructor
  · intro k hk
    exact generate_linear_chirp_getElem Real.sin (2 * Real.pi) f0 f1 rate dur k hk
  · intro s hs
    rw [generate_eq_map_phases] at hs
    rcases List.mem_map.mp hs with ⟨phi, _, rfl⟩
    exact ⟨Real.neg_one_le_sin phi, Real.sin_le_one phi⟩

theorem c8_chirp_formula_witness :
    0 < (1 : ℝ) ∧
    ((∀ k, k < (roundHAZ ((1 : ℝ) * 1)).toNat →
      (generate_linear_chirp Real.sin (2 * Real.pi) (0 : ℝ) 0 1 1)[k]?
        = some (Real.sin (phaseAt (2 * Real.pi) (0 : ℝ) 0 1 (1 / 1) 0 0 (k + 1)))) ∧
    (∀ s ∈ generate_linear_chirp Real.sin (2 * Real.pi) (0 : ℝ) 0 1 1,
      -1 ≤ s ∧ s ≤ 1)) :=
  ⟨one_pos, c8_chirp_formula 0 0 1 1 one_pos⟩

/- ### C4: first sample of the steady tone -/

/-- C4 (amended, see `c4_counterexample`): the phase accumulator starts at 0
but is advanced and wrapped before each sample is pushed, so whenever at
least one sample is produced the first sample is
`sin(rem_euclid (2 pi * f0 * (1 / rate)) (2 pi))`, not `sin 0`. -/
theorem c4_first_sample (f0 f1 rate dur : ℝ)
    (h : 1 ≤ (roundHAZ (dur * rate)).toNat) :
    (generate_linear_chirp Real.sin (2 * Real.pi) f0 f1 rate dur).head?
      = some (Real.sin (remE (2 * Real.pi * f0 * (1 / rate)) (2 * Real.pi))) :=
  generate_linear_chirp_head Real.sin (2 * Real.pi) f0 f1 rate dur h

theorem c4_first_sample_witness :
    1 ≤ (roundHAZ ((1 : ℝ) * 1)).toNat ∧
    (generate_linear_chirp Real.sin (2 * Real.pi) (0 : ℝ) 0 1 1).head?
      = some (Real.sin (remE (2 * Real.pi * 0 * (1 / 1)) (2 * Real.pi))) := by
  have h : 1 ≤ (roundHAZ ((1 : ℝ) * 1)).toNat := by norm_num [roundHAZ]
  exact ⟨h, c4_first_sample 0 0 1 1 h⟩

/-- C4, refuted as stated: with frequency 1000, sample rate 16000 and
duration 1 ms (the configuration of the claim) the first generated sample is
`sin(pi / 8)`, which is positive, not `sin 0 = 0`: the loop advances the
phase before pushing the sample. -/
theorem c4_counterexample :
    (generate_linear_chirp Real.sin (2 * Real.pi) 1000 1000 16000 (1 / 1000)).head?
      = some (Real.sin (Real.pi / 8)) ∧
    Real.sin (Real.pi / 8) ≠ 0 ∧
    (generate_linear_chirp Real.sin (2 * Real.pi) 1000 1000 16000 (1 / 1000)).head?
      ≠ some (Real.sin 0) := by
  have h1 : 1 ≤ (roundHAZ ((1 / 1000 : ℝ) * 16000)).toNat := by
    norm_num [roundHAZ]
  have hh := generate_linear_chirp_head Real.sin (2 * Real.pi) 1000 1000 16000
    (1 / 1000) h1
  have harg : (2 : ℝ) * Real.pi * 1000 * (1 / 16000) = Real.pi / 8 := by ring
  have hdiv : (Real.pi / 8) / (2 * Real.pi) = 1 / 16 := by
    field_simp
    ring
  have hrem : remE (Real.pi / 8) (2 * Real.pi) = Real.pi / 8 := by
    rw [remE, hdiv]
    norm_num
  have hhead : (generate_linear_chirp Real.sin (2 * Real.pi) 1000 1000 16000
      (1 / 1000)).head? = some (Real.sin (Real.pi / 8)) := by
    rw [hh, harg, hrem]
  have hpos : 0 < Real.sin (Real.pi / 8) := by
    apply Real.sin_pos_of_pos_of_lt_pi
    · positivity
    · linarith [Real.pi_pos]
  refine ⟨hhead, ne_of_gt hpos, ?_⟩
  rw [hhead, Real.sin_zero]
  intro hcontra
  exact (ne_of_gt hpos) (Option.some_injective _ hcontra)

/- ### C9: degenerate chirp versus the steady-tone oscillator -/

/-- C9 (amended, see `c9_counterexample`): for a degenerate chirp with
`f0 = f1` and positive duration the per-sample phase increment is the
constant `2 pi * f0 / rate`, and the chirp sample sequence equals the
spec steady-tone oscillator sequence shifted by one step: chirp sample `k`
is oscillator sample `k + 1`, because the chirp advances the phase before
emitting while the spec oscillator emits before advancing. -/
theorem c9_degenerate_chirp_shift (f0 rate dur : ℝ) (k : ℕ) (hdur : 0 < dur)
    (hk : k + 1 < (roundHAZ (dur * rate)).toNat) :
    (generate_linear_chirp Real.sin (2 * Real.pi) f0 f0 rate dur)[k]?
      = (steady_tone Real.sin (2 * Real.pi) f0 rate (dur * 1000))[k + 1]? := by
  have hts : total_samples (dur * 1000) rate = (roundHAZ (dur * rate)).toNat := by
    rw [total_samples, show dur * 1000 * rate / 1000 = dur * rate by ring]
  rw [generate_linear_chirp_getElem Real.sin (2 * Real.pi) f0 f0 rate dur k
    (by omega)]
  rw [steady_tone, hts, steadyToneLoop_getElem _ _ _ _ _ _ hk]
  rw [phaseAt_const]
  rw [show (fun q : ℝ => remE (q + 2 * Real.pi * f0 * (1 / rate)) (2 * Real.pi))
      = (fun q : ℝ => remE (q + 2 * Real.pi * f0 / rate) (2 * Real.pi)) by
    funext q
    rw [mul_one_div]]

theorem c9_degenerate_chirp_shift_witness :
    0 < (1 : ℝ) ∧ 0 + 1 < (roundHAZ ((1 : ℝ) * 2)).toNat ∧
    (generate_linear_chirp Real.sin (2 * Real.pi) (0 : ℝ) 0 2 1)[0]?
      = (steady_tone Real.sin (2 * Real.pi) (0 : ℝ) 2 (1 * 1000))[0 + 1]? := by
  have hk : 0 + 1 < (roundHAZ ((1 : ℝ) * 2)).toNat := by norm_num [roundHAZ]
  exact ⟨one_pos, hk, c9_degenerate_chirp_shift 0 2 1 0 one_pos hk⟩

/-- C9, refuted as stated: a degenerate chirp at 100 Hz with sample rate 400
and duration 10 ms starts with sample `sin(pi / 2) = 1`, while the spec
steady-tone oscillator at the same configuration starts with
`sin 0 = 0` - the two sequences differ (far beyond floating-point
tolerance) already at index 0; they agree only up to a one-step shift. -/
theorem c9_counterexample :
    (generate_linear_chirp Real.sin (2 * Real.pi) 100 100 400 (1 / 100)).head?
      = some 1 ∧
    (steady_tone Real.sin (2 * Real.pi) (100 : ℝ) 400 10).head? = some 0 ∧
    (generate_linear_chirp Real.sin (2 * Real.pi) 100 100 400 (1 / 100)).head?
      ≠ (steady_tone Real.sin (2 * Real.pi) (100 : ℝ) 400 10).head? := by
  have h1 : 1 ≤ (roundHAZ ((1 / 100 : ℝ) * 400)).toNat := by
    norm_num [roundHAZ]
  have hh := generate_linear_chirp_head Real.sin (2 * Real.pi) 100 100 400
    (1 / 100) h1
  have harg : (2 : ℝ) * Real.pi * 100 * (1 / 400) = Real.pi / 2 := by ring
  have hdiv : (Real.pi / 2) / (2 * Real.pi) = 1 / 4 := by
    field_simp
    ring
  have hrem : remE (Real.pi / 2) (2 * Real.pi) = Real.pi / 2 := by
    rw [remE, hdiv]
    norm_num
  have hchirp : (generate_linear_chirp Real.sin (2 * Real.pi) 100 100 400
      (1 / 100)).head? = some 1 := by
    rw [hh, harg, hrem, Real.sin_pi_div_two]
  have hn : total_samples (10 : ℝ) 400 = 3 + 1 := by
    rw [total_samples, show roundHAZ ((10 : ℝ) * 400 / 1000) = 4 by
      norm_num [roundHAZ]]
    rfl
  have hosc : (steady_tone Real.sin (2 * Real.pi) (100 : ℝ) 400 10).head?
      = some 0 := by
    rw [steady_tone, hn, steadyToneLoop, List.head?_cons, Real.sin_zero]
  refine ⟨hchirp, hosc, ?_⟩
  rw [hchirp, hosc]
  intro hcontra
  have : (1 : ℝ) = 0 := Option.some_injective _ hcontra
  norm_num at this

end SinGen
